import Mathlib

/-!
# TRACESWO capture on TM4C: the receive ring buffer

Shallow embedding of `src/platforms/common/tm4c/swo_uart.c`:

* the file-level state `buf_rx`, `buf_rx_in`, `buf_rx_out` becomes the structure `Fifo`;
* `trace_buf_push`, `swo_send_buffer`, `trace_tick` and `SWO_UART_ISR` become functions on it;
* `uint32_t` / `size_t` arithmetic is arithmetic on `Nat` reduced modulo `2 ^ 32`;
* the USB transport (`usbd_ep_write_packet`) is external: its return value is an argument of
  the embedding and every call made to it is recorded as a `Packet`;
* the UART receive queue is the list of words that `uart_recv` hands out, oldest first, and
  `uart_is_interrupt_source (SWO_UART, UART_INT_RT)` is a boolean argument.
-/

namespace SwoUart

/-- The constant `FIFO_SIZE` (`#define FIFO_SIZE 256U`). -/
def FIFO_SIZE : Nat := 256

/-- Modulus of `uint32_t` and of `size_t` on the 32 bit target. -/
def U32 : Nat := 2 ^ 32

/-- The file-level state of `swo_uart.c`: the storage `buf_rx` (a map from array offset to the
byte held there), the in pointer `buf_rx_in` and the out pointer `buf_rx_out`. -/
structure Fifo where
  buf_rx : Nat → Nat
  buf_rx_in : Nat
  buf_rx_out : Nat

/-- One call of `usbd_ep_write_packet`: the array offset of the pointer handed over
(`&buf_rx[offset]`), the length argument, and the bytes found there at the time of the call. -/
structure Packet where
  offset : Nat
  len : Nat
  data : List Nat
deriving DecidableEq

/-- The statics as the C start-up code leaves them: storage zeroed, both pointers zero. -/
def Fifo.init : Fifo := ⟨fun _ => 0, 0, 0⟩

/-- The value of the local `len` of `trace_buf_push` after the `if`/`else` of lines 111-114,
before it is clamped. -/
def run_length (s : Fifo) : Nat :=
  if s.buf_rx_in > s.buf_rx_out then
    s.buf_rx_in - s.buf_rx_out
  else
    (FIFO_SIZE + U32 - s.buf_rx_out) % U32

/-- The value of the local `len` of `trace_buf_push` after the clamp of lines 116-117. -/
def chunk_length (s : Fifo) : Nat :=
  if run_length s > 64 then 64 else run_length s

/-- The bytes of `buf_rx` at offsets `off, off + 1, ..., off + len - 1`. -/
def Fifo.read (s : Fifo) (off len : Nat) : List Nat :=
  (List.range len).map (fun i => s.buf_rx (off + i))

/-- The function `trace_buf_push`. `ret` is what `usbd_ep_write_packet` returns if it is called.
The result is the new state and the calls made to the transport, in order. -/
def trace_buf_push (s : Fifo) (ret : Nat) : Fifo × List Packet :=
  if s.buf_rx_in = s.buf_rx_out then
    (s, [])
  else
    let len := chunk_length s
    let pkt : Packet := ⟨s.buf_rx_out, len, s.read s.buf_rx_out len⟩
    if ret = len then
      ({ s with buf_rx_out := (s.buf_rx_out + len) % U32 % FIFO_SIZE }, [pkt])
    else
      (s, [pkt])

/-- The function `swo_send_buffer`: both arguments are ignored. -/
def swo_send_buffer (s : Fifo) (ret : Nat) : Fifo × List Packet :=
  trace_buf_push s ret

/-- The function `trace_tick`. -/
def trace_tick (s : Fifo) (ret : Nat) : Fifo × List Packet :=
  trace_buf_push s ret

/-- The state at the exit of the `while` loop of `SWO_UART_ISR`: the ring, the local `flush`,
what is left in the UART queue, and the bytes stored by `buf_rx[buf_rx_in++] = c`, in order. -/
structure Capture where
  fifo : Fifo
  flush : Bool
  rx : List Nat
  stored : List Nat

/-- The `while` loop of `SWO_UART_ISR` (lines 141-158). The UART queue `rx` lists the words
`uart_recv` returns, oldest first; the store into the `uint8_t` array keeps `c % 256`. -/
def SWO_UART_ISR_loop (s : Fifo) (flush : Bool) : List Nat → Capture
  | [] => ⟨s, flush, [], []⟩
  | c :: rx =>
    if (s.buf_rx_in + 1) % U32 % FIFO_SIZE ≠ s.buf_rx_out then
      let s1 : Fifo :=
        { s with buf_rx := Function.update s.buf_rx s.buf_rx_in (c % 256),
                 buf_rx_in := (s.buf_rx_in + 1) % U32 }
      let s2 : Fifo := if s1.buf_rx_in ≥ FIFO_SIZE then { s1 with buf_rx_in := 0 } else s1
      let r := SWO_UART_ISR_loop s2 flush rx
      { r with stored := c % 256 :: r.stored }
    else
      ⟨s, true, rx, []⟩

/-- What one run of `SWO_UART_ISR` does: the ring and the UART queue afterwards, the bytes it
stored, how many times it called `trace_buf_push`, and the transport calls that made. -/
structure IsrResult where
  fifo : Fifo
  rx : List Nat
  stored : List Nat
  drains : Nat
  sent : List Packet

/-- The interrupt handler `SWO_UART_ISR`. `rt` is the value of
`uart_is_interrupt_source (SWO_UART, UART_INT_RT)` on entry, `rx` the UART queue and `ret` the
return value of the transport should the flush reach it. -/
def SWO_UART_ISR (s : Fifo) (rt : Bool) (rx : List Nat) (ret : Nat) : IsrResult :=
  let c := SWO_UART_ISR_loop s rt rx
  if c.flush then
    let p := trace_buf_push c.fifo ret
    ⟨p.1, c.rx, c.stored, 1, p.2⟩
  else
    ⟨c.fifo, c.rx, c.stored, 0, []⟩

/-- Number of unread bytes in the ring: `(buf_rx_in - buf_rx_out) mod 256`. -/
def Fifo.pending (s : Fifo) : Nat :=
  (s.buf_rx_in + FIFO_SIZE - s.buf_rx_out) % FIFO_SIZE

/-- The unread bytes of the ring: positions `buf_rx_out` up to `buf_rx_in`, wrapping at 256. -/
def Fifo.unread (s : Fifo) : List Nat :=
  (List.range s.pending).map (fun i => s.buf_rx ((s.buf_rx_out + i) % FIFO_SIZE))

/-- Both pointers are array indices. -/
def Fifo.InRange (s : Fifo) : Prop :=
  s.buf_rx_in < FIFO_SIZE ∧ s.buf_rx_out < FIFO_SIZE

instance (s : Fifo) : Decidable s.InRange := by
  unfold Fifo.InRange; infer_instance

/-- The bytes of the transport calls that were accepted in full, that is those calls for which
the transport returned the length it was offered. -/
def acceptedBytes (ret : Nat) (sent : List Packet) : List Nat :=
  (sent.filter (fun p => ret = p.len)).flatMap Packet.data

/-- An invocation of one of the two entry points, with everything the environment supplies. -/
inductive Call where
  | isr (rt : Bool) (rx : List Nat) (ret : Nat)
  | push (ret : Nat)

/-- A ring together with the history of a run: every byte the capture handler stored and every
byte of a chunk the transport accepted in full, both in order. -/
structure Trace where
  fifo : Fifo
  stored : List Nat
  accepted : List Nat

/-- One invocation, with the history extended. -/
def Trace.step (t : Trace) : Call → Trace
  | .isr rt rx ret =>
    let r := SWO_UART_ISR t.fifo rt rx ret
    ⟨r.fifo, t.stored ++ r.stored, t.accepted ++ acceptedBytes ret r.sent⟩
  | .push ret =>
    let p := trace_buf_push t.fifo ret
    ⟨p.1, t.stored, t.accepted ++ acceptedBytes ret p.2⟩

/-- A sequence of invocations from the initial state. -/
def run (calls : List Call) : Trace :=
  calls.foldl Trace.step ⟨Fifo.init, [], []⟩

/-- The quantity `available()` in the words of the specification: `write_index − read_index`
if `write_index ≥ read_index`, else `capacity − read_index`. -/
def available (s : Fifo) : Nat :=
  if s.buf_rx_in ≥ s.buf_rx_out then s.buf_rx_in - s.buf_rx_out else FIFO_SIZE - s.buf_rx_out

/-- The ring after one byte was stored, for pointers that are array indices. -/
def Fifo.store (s : Fifo) (c : Nat) : Fifo :=
  { s with buf_rx := Function.update s.buf_rx s.buf_rx_in (c % 256),
           buf_rx_in := (s.buf_rx_in + 1) % FIFO_SIZE }

/-- What every run preserves: the pointers are array indices, and the accepted bytes followed by
the unread bytes are the stored bytes. -/
def Trace.Inv (t : Trace) : Prop :=
  t.fifo.InRange ∧ t.accepted ++ t.fifo.unread = t.stored

/-- A run that leaves the ring wrapped: 200 bytes are captured, three chunks of 64 are drained
and accepted, and 60 further bytes are captured. No capture raises `flush`. -/
def wrappedRun : List Call :=
  [.isr false (List.replicate 200 0) 0, .push 64, .push 64, .push 64,
    .isr false (List.replicate 60 0) 0]

/-- The transport took whole every chunk it was offered: its return value `r` is the length of
each call in `sent`. -/
def Accepts (r : Nat) (sent : List Packet) : Prop :=
  ∀ p ∈ sent, r = p.len

instance (r : Nat) (sent : List Packet) : Decidable (Accepts r sent) := by
  unfold Accepts; infer_instance

/-- Consecutive invocations of `trace_buf_push` with nothing captured in between; `rets` lists
what the transport returns to each of them. -/
def pushes (s : Fifo) : List Nat → Fifo
  | [] => s
  | r :: rets => pushes (trace_buf_push s r).1 rets

/-- The transport took whole every chunk offered to it in the course of `pushes s rets`. -/
def AllAccepted (s : Fifo) : List Nat → Prop
  | [] => True
  | r :: rets => Accepts r (trace_buf_push s r).2 ∧ AllAccepted (trace_buf_push s r).1 rets

instance AllAccepted.decidable : ∀ (rets : List Nat) (s : Fifo), Decidable (AllAccepted s rets)
  | [], _ => isTrue trivial
  | r :: rets, s =>
    have := AllAccepted.decidable rets (trace_buf_push s r).1
    inferInstanceAs (Decidable (Accepts r (trace_buf_push s r).2 ∧
      AllAccepted (trace_buf_push s r).1 rets))

/-- Number of chunks of at most 64 bytes the unread bytes fall into: those of the run up to
`buf_rx_in`, or, on a wrapped ring, those of the run up to the end of the storage plus those of
the run from offset 0. -/
def chunksLeft (s : Fifo) : Nat :=
  if s.buf_rx_in ≥ s.buf_rx_out then (s.buf_rx_in - s.buf_rx_out + 63) / 64
  else (FIFO_SIZE - s.buf_rx_out + 63) / 64 + (s.buf_rx_in + 63) / 64

/-! ## Arithmetic of one drain -/

theorem run_length_eq (s : Fifo) (h : s.InRange) :
    run_length s =
      if s.buf_rx_in > s.buf_rx_out then s.buf_rx_in - s.buf_rx_out
      else FIFO_SIZE - s.buf_rx_out := by
  obtain ⟨h1, h2⟩ := h
  simp only [FIFO_SIZE, U32, run_length] at *
  split <;> omega

theorem chunk_length_eq (s : Fifo) (h : s.InRange) :
    chunk_length s =
      if s.buf_rx_in > s.buf_rx_out then min 64 (s.buf_rx_in - s.buf_rx_out)
      else min 64 (FIFO_SIZE - s.buf_rx_out) := by
  unfold chunk_length
  rw [run_length_eq s h]
  split <;> split <;> omega

theorem chunk_length_bounds (s : Fifo) (h : s.InRange) (hne : s.buf_rx_in ≠ s.buf_rx_out) :
    1 ≤ chunk_length s ∧ chunk_length s ≤ 64 ∧ chunk_length s ≤ s.pending ∧
      s.buf_rx_out + chunk_length s ≤ FIFO_SIZE := by
  rw [chunk_length_eq s h]
  obtain ⟨h1, h2⟩ := h
  simp only [FIFO_SIZE, Fifo.pending] at *
  split <;> omega

/-- The new out pointer after a chunk was accepted, for pointers that are array indices. -/
theorem advance_eq (s : Fifo) (h : s.InRange) (hne : s.buf_rx_in ≠ s.buf_rx_out) :
    (s.buf_rx_out + chunk_length s) % U32 % FIFO_SIZE =
      (s.buf_rx_out + chunk_length s) % FIFO_SIZE := by
  obtain ⟨_, h64, _, _⟩ := chunk_length_bounds s h hne
  obtain ⟨h1, h2⟩ := h
  simp only [FIFO_SIZE, U32] at *
  omega

theorem trace_buf_push_inRange (s : Fifo) (ret : Nat) (h : s.InRange) :
    (trace_buf_push s ret).1.InRange := by
  unfold trace_buf_push
  by_cases he : s.buf_rx_in = s.buf_rx_out
  · simpa [he] using h
  · by_cases hr : ret = chunk_length s
    · simp only [he, hr, if_true, if_false]
      exact ⟨h.1, Nat.mod_lt _ (by decide)⟩
    · simpa [he, hr] using h

/-- Splitting the unread bytes after their first `n`. -/
theorem unread_split (b : Nat → Nat) (o p n : Nat) (hn : n ≤ p) (ho : o + n ≤ FIFO_SIZE) :
    (List.range p).map (fun i => b ((o + i) % FIFO_SIZE)) =
      (List.range n).map (fun i => b (o + i)) ++
        (List.range (p - n)).map (fun i => b (((o + n) % FIFO_SIZE + i) % FIFO_SIZE)) := by
  obtain ⟨k, rfl⟩ := Nat.exists_eq_add_of_le hn
  rw [List.range_add, List.map_append, List.map_map, Nat.add_sub_cancel_left]
  congr 1
  · apply List.map_congr_left
    intro i hi
    have hi' := List.mem_range.mp hi
    rw [Nat.mod_eq_of_lt (by omega)]
  · apply List.map_congr_left
    intro i _
    simp only [Function.comp, FIFO_SIZE]
    congr 1
    omega

/-- A drain hands the transport a prefix of the unread bytes and, when the transport takes the
chunk, removes exactly that prefix from the ring. -/
theorem trace_buf_push_unread (s : Fifo) (ret : Nat) (h : s.InRange) :
    acceptedBytes ret (trace_buf_push s ret).2 ++ (trace_buf_push s ret).1.unread = s.unread := by
  unfold trace_buf_push
  by_cases he : s.buf_rx_in = s.buf_rx_out
  · simp [he, acceptedBytes]
  · obtain ⟨h1, h64, hp, ho⟩ := chunk_length_bounds s h he
    by_cases hr : ret = chunk_length s
    · simp only [he, hr, if_true, if_false, acceptedBytes, List.filter_cons, decide_True,
        List.filter_nil, List.flatMap_cons, List.flatMap_nil, List.append_nil]
      rw [advance_eq s h he]
      have hpend : Fifo.pending
          { s with buf_rx_out := (s.buf_rx_out + chunk_length s) % FIFO_SIZE } =
            s.pending - chunk_length s := by
        obtain ⟨hi, hout⟩ := h
        simp only [Fifo.pending, FIFO_SIZE] at *
        omega
      simp only [Fifo.unread, hpend, Fifo.read]
      exact (unread_split s.buf_rx s.buf_rx_out s.pending (chunk_length s) hp ho).symm
    · simp [he, hr, acceptedBytes]

/-! ## The capture loop -/

theorem full_test_eq (s : Fifo) :
    (s.buf_rx_in + 1) % U32 % FIFO_SIZE = (s.buf_rx_in + 1) % FIFO_SIZE :=
  Nat.mod_mod_of_dvd _ (by decide)

theorem loop_nil (s : Fifo) (flush : Bool) :
    SWO_UART_ISR_loop s flush [] = ⟨s, flush, [], []⟩ := rfl

theorem loop_cons_full (s : Fifo) (flush : Bool) (c : Nat) (rx : List Nat)
    (hfull : (s.buf_rx_in + 1) % FIFO_SIZE = s.buf_rx_out) :
    SWO_UART_ISR_loop s flush (c :: rx) = ⟨s, true, rx, []⟩ := by
  simp [SWO_UART_ISR_loop, full_test_eq, hfull]

theorem loop_cons_store (s : Fifo) (flush : Bool) (c : Nat) (rx : List Nat)
    (hin : s.buf_rx_in < FIFO_SIZE) (hfree : (s.buf_rx_in + 1) % FIFO_SIZE ≠ s.buf_rx_out) :
    SWO_UART_ISR_loop s flush (c :: rx) =
      { SWO_UART_ISR_loop (s.store c) flush rx with
        stored := c % 256 :: (SWO_UART_ISR_loop (s.store c) flush rx).stored } := by
  have hs : (if (s.buf_rx_in + 1) % U32 ≥ FIFO_SIZE then
      ({ buf_rx := Function.update s.buf_rx s.buf_rx_in (c % 256), buf_rx_in := 0,
         buf_rx_out := s.buf_rx_out } : Fifo)
      else { buf_rx := Function.update s.buf_rx s.buf_rx_in (c % 256),
             buf_rx_in := (s.buf_rx_in + 1) % U32, buf_rx_out := s.buf_rx_out }) = s.store c := by
    simp only [FIFO_SIZE, U32, Fifo.store] at *
    split
    · congr 1; omega
    · congr 1; omega
  simp only [SWO_UART_ISR_loop, full_test_eq, hfree, ne_eq, not_false_eq_true, if_true, hs]

theorem store_inRange (s : Fifo) (c : Nat) (h : s.InRange) : (s.store c).InRange :=
  ⟨Nat.mod_lt _ (by decide), h.2⟩

theorem store_pending (s : Fifo) (c : Nat) (h : s.InRange)
    (hfree : (s.buf_rx_in + 1) % FIFO_SIZE ≠ s.buf_rx_out) :
    (s.store c).pending = s.pending + 1 := by
  obtain ⟨h1, h2⟩ := h
  simp only [Fifo.pending, Fifo.store, FIFO_SIZE] at *
  omega

theorem store_unread (s : Fifo) (c : Nat) (h : s.InRange)
    (hfree : (s.buf_rx_in + 1) % FIFO_SIZE ≠ s.buf_rx_out) :
    (s.store c).unread = s.unread ++ [c % 256] := by
  have hp := store_pending s c h hfree
  obtain ⟨h1, h2⟩ := h
  simp only [Fifo.unread, hp, List.range_succ, List.map_append, List.map_cons, List.map_nil]
  congr 1
  · apply List.map_congr_left
    intro i hi
    have hi' := List.mem_range.mp hi
    simp only [Fifo.store]
    apply Function.update_noteq
    simp only [Fifo.pending, FIFO_SIZE] at *
    omega
  · have : (s.buf_rx_out + s.pending) % FIFO_SIZE = s.buf_rx_in := by
      simp only [Fifo.pending, FIFO_SIZE] at *
      omega
    simp [Fifo.store, this]

/-- In a ring whose pointers are array indices, full means 255 unread bytes. -/
theorem full_iff_pending (s : Fifo) (h : s.InRange) :
    (s.buf_rx_in + 1) % FIFO_SIZE = s.buf_rx_out ↔ s.pending = 255 := by
  obtain ⟨h1, h2⟩ := h
  simp only [Fifo.pending, FIFO_SIZE] at *
  omega

theorem pending_le (s : Fifo) : s.pending ≤ 255 := by
  have := Nat.mod_lt (s.buf_rx_in + FIFO_SIZE - s.buf_rx_out) (show 0 < FIFO_SIZE by decide)
  simp only [Fifo.pending, FIFO_SIZE] at *
  omega

/-- The capture loop keeps the pointers array indices, appends what it stores to the unread
bytes, and raises `flush` exactly when the UART queue holds more than the free room. -/
theorem loop_spec (rx : List Nat) : ∀ (s : Fifo) (flush : Bool), s.InRange →
    (SWO_UART_ISR_loop s flush rx).fifo.InRange ∧
    (SWO_UART_ISR_loop s flush rx).fifo.unread = s.unread ++ (SWO_UART_ISR_loop s flush rx).stored ∧
    (SWO_UART_ISR_loop s flush rx).flush = (flush || decide (255 - s.pending < rx.length)) := by
  induction rx with
  | nil =>
    intro s flush h
    simp [loop_nil, h]
  | cons c rx ih =>
    intro s flush h
    by_cases hfull : (s.buf_rx_in + 1) % FIFO_SIZE = s.buf_rx_out
    · rw [loop_cons_full s flush c rx hfull]
      have hp := (full_iff_pending s h).mp hfull
      simp [h, hp]
    · rw [loop_cons_store s flush c rx h.1 hfull]
      obtain ⟨i1, i2, i3⟩ := ih (s.store c) flush (store_inRange s c h)
      have hp := store_pending s c h hfull
      have hlt : s.pending < 255 := by
        have := pending_le s
        have := (full_iff_pending s h).not.mp hfull
        omega
      refine ⟨i1, ?_, ?_⟩
      · simp only [i2, store_unread s c h hfull, List.append_assoc, List.singleton_append]
      · simp only [i3, hp, List.length_cons]
        congr 2
        apply propext
        omega

theorem loop_stored_length (rx : List Nat) : ∀ (s : Fifo) (flush : Bool), s.InRange →
    (SWO_UART_ISR_loop s flush rx).stored.length = min rx.length (255 - s.pending) := by
  induction rx with
  | nil => intro s flush _; simp [loop_nil]
  | cons c rx ih =>
    intro s flush h
    by_cases hfull : (s.buf_rx_in + 1) % FIFO_SIZE = s.buf_rx_out
    · rw [loop_cons_full s flush c rx hfull]
      simp [(full_iff_pending s h).mp hfull]
    · rw [loop_cons_store s flush c rx h.1 hfull]
      have hlt : s.pending < 255 := by
        have := pending_le s
        have := (full_iff_pending s h).not.mp hfull
        omega
      simp only [List.length_cons, ih (s.store c) flush (store_inRange s c h),
        store_pending s c h hfull]
      omega

theorem SWO_UART_ISR_flush (s : Fifo) (rt : Bool) (rx : List Nat) (ret : Nat)
    (hf : (SWO_UART_ISR_loop s rt rx).flush = true) :
    SWO_UART_ISR s rt rx ret =
      ⟨(trace_buf_push (SWO_UART_ISR_loop s rt rx).fifo ret).1, (SWO_UART_ISR_loop s rt rx).rx,
        (SWO_UART_ISR_loop s rt rx).stored, 1,
        (trace_buf_push (SWO_UART_ISR_loop s rt rx).fifo ret).2⟩ := by
  simp [SWO_UART_ISR, hf]

theorem SWO_UART_ISR_quiet (s : Fifo) (rt : Bool) (rx : List Nat) (ret : Nat)
    (hf : ¬ (SWO_UART_ISR_loop s rt rx).flush = true) :
    SWO_UART_ISR s rt rx ret =
      ⟨(SWO_UART_ISR_loop s rt rx).fifo, (SWO_UART_ISR_loop s rt rx).rx,
        (SWO_UART_ISR_loop s rt rx).stored, 0, []⟩ := by
  simp [SWO_UART_ISR, hf]

theorem SWO_UART_ISR_inRange (s : Fifo) (rt : Bool) (rx : List Nat) (ret : Nat)
    (h : s.InRange) : (SWO_UART_ISR s rt rx ret).fifo.InRange := by
  have hl := (loop_spec rx s rt h).1
  by_cases hf : (SWO_UART_ISR_loop s rt rx).flush = true
  · rw [SWO_UART_ISR_flush s rt rx ret hf]
    exact trace_buf_push_inRange _ ret hl
  · rw [SWO_UART_ISR_quiet s rt rx ret hf]
    exact hl

/-- The handler appends what it stores to the unread bytes and may then hand a prefix of them to
the transport. -/
theorem SWO_UART_ISR_unread (s : Fifo) (rt : Bool) (rx : List Nat) (ret : Nat) (h : s.InRange) :
    acceptedBytes ret (SWO_UART_ISR s rt rx ret).sent ++ (SWO_UART_ISR s rt rx ret).fifo.unread =
      s.unread ++ (SWO_UART_ISR s rt rx ret).stored := by
  obtain ⟨hl, hu, _⟩ := loop_spec rx s rt h
  by_cases hf : (SWO_UART_ISR_loop s rt rx).flush = true
  · rw [SWO_UART_ISR_flush s rt rx ret hf]
    simp only [trace_buf_push_unread _ ret hl, hu]
  · rw [SWO_UART_ISR_quiet s rt rx ret hf]
    simp [acceptedBytes, hu]

/-! ## Runs from the initial state -/

theorem Trace.step_inv (t : Trace) (c : Call) (h : t.Inv) : (t.step c).Inv := by
  obtain ⟨hr, hs⟩ := h
  cases c with
  | isr rt rx ret =>
    refine ⟨SWO_UART_ISR_inRange t.fifo rt rx ret hr, ?_⟩
    simp only [Trace.step, List.append_assoc, SWO_UART_ISR_unread t.fifo rt rx ret hr]
    rw [← List.append_assoc, hs]
  | push ret =>
    refine ⟨trace_buf_push_inRange t.fifo ret hr, ?_⟩
    simp only [Trace.step, List.append_assoc, trace_buf_push_unread t.fifo ret hr]
    exact hs

theorem foldl_inv (calls : List Call) : ∀ t : Trace, t.Inv → (calls.foldl Trace.step t).Inv := by
  induction calls with
  | nil => intro t h; exact h
  | cons c calls ih => intro t h; exact ih _ (t.step_inv c h)

theorem run_inv (calls : List Call) : (run calls).Inv :=
  foldl_inv calls _ ⟨⟨by decide, by decide⟩, rfl⟩

theorem unread_length (s : Fifo) : s.unread.length = s.pending := by
  simp [Fifo.unread]

theorem empty_iff_pending (s : Fifo) (h : s.InRange) :
    s.buf_rx_in = s.buf_rx_out ↔ s.pending = 0 := by
  obtain ⟨h1, h2⟩ := h
  simp only [Fifo.pending, FIFO_SIZE] at *
  omega

theorem trace_buf_push_empty (s : Fifo) (ret : Nat) (h : s.buf_rx_in = s.buf_rx_out) :
    trace_buf_push s ret = (s, []) := by
  simp [trace_buf_push, h]

theorem trace_buf_push_accept (s : Fifo) (ret : Nat) (hne : s.buf_rx_in ≠ s.buf_rx_out)
    (hr : ret = chunk_length s) :
    trace_buf_push s ret =
      ({ s with buf_rx_out := (s.buf_rx_out + chunk_length s) % U32 % FIFO_SIZE },
        [⟨s.buf_rx_out, chunk_length s, s.read s.buf_rx_out (chunk_length s)⟩]) := by
  simp [trace_buf_push, hne, hr]

theorem trace_buf_push_reject (s : Fifo) (ret : Nat) (hne : s.buf_rx_in ≠ s.buf_rx_out)
    (hr : ret ≠ chunk_length s) :
    trace_buf_push s ret =
      (s, [⟨s.buf_rx_out, chunk_length s, s.read s.buf_rx_out (chunk_length s)⟩]) := by
  simp [trace_buf_push, hne, hr]

/-! ## The claims -/

/-- C1 (stream integrity): after any finite sequence of `SWO_UART_ISR` and `trace_buf_push`
invocations from the initial empty buffer, whatever the UART queues, idle flags and transport
return values, the chunks the transport accepted in full, concatenated, followed by the unread
bytes of the ring, are exactly the bytes the capture handler stored, in the order it stored
them. -/
theorem C1_stream_integrity (calls : List Call) :
    (run calls).accepted ++ (run calls).fifo.unread = (run calls).stored :=
  (run_inv calls).2

/-- C8 (empty/full disambiguation): in every state reachable from the initial empty buffer the
number of bytes stored and not yet accepted by the transport is `(buf_rx_in - buf_rx_out) mod 256`,
it is at most 255, and `buf_rx_in == buf_rx_out` holds exactly when no byte is pending. -/
theorem C8_pending_count (calls : List Call) :
    (run calls).stored.length =
        (run calls).accepted.length +
          ((run calls).fifo.buf_rx_in + 256 - (run calls).fifo.buf_rx_out) % 256 ∧
      (run calls).stored.length - (run calls).accepted.length ≤ 255 ∧
      ((run calls).fifo.buf_rx_in = (run calls).fifo.buf_rx_out ↔
        (run calls).stored.length = (run calls).accepted.length) := by
  obtain ⟨hr, hs⟩ := run_inv calls
  have hlen := congrArg List.length hs
  rw [List.length_append, unread_length] at hlen
  have hp := pending_le (run calls).fifo
  have he := empty_iff_pending (run calls).fifo hr
  simp only [Fifo.pending, FIFO_SIZE] at *
  omega

/-- C2 (all-or-nothing advance): for a non-empty buffer with both indices in `[0,256)` and any
transport return value `r`, `trace_buf_push` offers one chunk, of some length `len`; afterwards
`buf_rx_out` is `(old buf_rx_out + len) mod 256` if `r = len` and is unchanged otherwise, so the
distance it advanced is never more than `r`. -/
theorem C2_all_or_nothing (s : Fifo) (r : Nat) (h : s.InRange)
    (hne : s.buf_rx_in ≠ s.buf_rx_out) :
    ∃ p : Packet, (trace_buf_push s r).2 = [p] ∧
      (trace_buf_push s r).1.buf_rx_out =
        (if r = p.len then (s.buf_rx_out + p.len) % 256 else s.buf_rx_out) ∧
      ((trace_buf_push s r).1.buf_rx_out + 256 - s.buf_rx_out) % 256 ≤ r := by
  obtain ⟨h1, h64, _, ho⟩ := chunk_length_bounds s h hne
  have hadv := advance_eq s h hne
  obtain ⟨hi, hout⟩ := h
  by_cases hr : r = chunk_length s
  · refine ⟨_, congrArg Prod.snd (trace_buf_push_accept s r hne hr), ?_⟩
    rw [trace_buf_push_accept s r hne hr]
    simp only [hr, if_true, hadv]
    simp only [FIFO_SIZE] at *
    refine ⟨trivial, ?_⟩
    omega
  · refine ⟨_, congrArg Prod.snd (trace_buf_push_reject s r hne hr), ?_⟩
    rw [trace_buf_push_reject s r hne hr]
    simp only [hr, if_false]
    simp only [FIFO_SIZE] at *
    refine ⟨trivial, ?_⟩
    omega

theorem C2_all_or_nothing_witness :
    Fifo.InRange ⟨fun i => i, 100, 250⟩ ∧ (100 : Nat) ≠ 250 ∧ ∃ p : Packet, (trace_buf_push ⟨fun i => i, 100, 250⟩ 70).2 = [p] ∧
      (trace_buf_push ⟨fun i => i, 100, 250⟩ 70).1.buf_rx_out =
        (if 70 = p.len then (250 + p.len) % 256 else 250) ∧
      ((trace_buf_push ⟨fun i => i, 100, 250⟩ 70).1.buf_rx_out + 256 - 250) % 256 ≤ 70 :=
  ⟨by decide, by decide,
    C2_all_or_nothing ⟨fun i => i, 100, 250⟩ 70 ⟨by decide, by decide⟩ (by decide)⟩

/-- C3 (offered run): for a non-empty buffer with both indices in `[0,256)`, `trace_buf_push`
calls the transport exactly once, with offset `buf_rx_out` and length
`min(64, buf_rx_in - buf_rx_out)` if `buf_rx_in > buf_rx_out` and `min(64, 256 - buf_rx_out)` if
`buf_rx_in < buf_rx_out`, whatever the transport returns. -/
theorem C3_offered_run (s : Fifo) (r : Nat) (h : s.InRange) (hne : s.buf_rx_in ≠ s.buf_rx_out) :
    (trace_buf_push s r).2.map (fun p => (p.offset, p.len)) =
      [(s.buf_rx_out,
        if s.buf_rx_in > s.buf_rx_out then min 64 (s.buf_rx_in - s.buf_rx_out)
        else min 64 (256 - s.buf_rx_out))] := by
  have hc := chunk_length_eq s h
  simp only [FIFO_SIZE] at hc
  by_cases hr : r = chunk_length s
  · rw [trace_buf_push_accept s r hne hr]
    simp [hc]
  · rw [trace_buf_push_reject s r hne hr]
    simp [hc]

theorem C3_offered_run_witness :
    Fifo.InRange ⟨fun i => i, 3, 200⟩ ∧ (3 : Nat) ≠ 200 ∧
    (trace_buf_push ⟨fun i => i, 3, 200⟩ 0).2.map (fun p => (p.offset, p.len)) =
      [(200, if 3 > 200 then min 64 (3 - 200) else min 64 (256 - 200))] :=
  ⟨by decide, by decide,
    C3_offered_run ⟨fun i => i, 3, 200⟩ 0 ⟨by decide, by decide⟩ (by decide)⟩

/-- C4 (back-pressure retry): for a non-empty buffer, if the transport returns less than the
length it was offered (zero included), `trace_buf_push` leaves the storage and both indices as
they were, and a second `trace_buf_push` right after it offers the transport the same offset,
the same length and the same bytes. -/
theorem C4_backpressure_retry (s : Fifo) (r r2 : Nat) (p : Packet)
    (hne : s.buf_rx_in ≠ s.buf_rx_out) (hp : (trace_buf_push s r).2 = [p]) (hr : r < p.len) :
    (trace_buf_push s r).1.buf_rx = s.buf_rx ∧
      (trace_buf_push s r).1.buf_rx_in = s.buf_rx_in ∧
      (trace_buf_push s r).1.buf_rx_out = s.buf_rx_out ∧
      (trace_buf_push (trace_buf_push s r).1 r2).2 = [p] := by
  have hrc : r ≠ chunk_length s := by
    intro hc
    rw [trace_buf_push_accept s r hne hc] at hp
    have : p.len = chunk_length s := by
      have := List.head_eq_of_cons_eq hp
      rw [← this]
    omega
  rw [trace_buf_push_reject s r hne hrc] at hp ⊢
  refine ⟨rfl, rfl, rfl, ?_⟩
  by_cases h2 : r2 = chunk_length s
  · rw [trace_buf_push_accept s r2 hne h2]; exact hp
  · rw [trace_buf_push_reject s r2 hne h2]; exact hp

theorem C4_backpressure_retry_witness :
    (2 : Nat) ≠ 254 ∧ (trace_buf_push ⟨fun i => i, 2, 254⟩ 0).2 = [⟨254, 2, [254, 255]⟩] ∧
      0 < (⟨254, 2, [254, 255]⟩ : Packet).len ∧
      (trace_buf_push ⟨fun i => i, 2, 254⟩ 0).1.buf_rx = (fun i => i) ∧
      (trace_buf_push ⟨fun i => i, 2, 254⟩ 0).1.buf_rx_in = 2 ∧
      (trace_buf_push ⟨fun i => i, 2, 254⟩ 0).1.buf_rx_out = 254 ∧
      (trace_buf_push (trace_buf_push ⟨fun i => i, 2, 254⟩ 0).1 2).2 = [⟨254, 2, [254, 255]⟩] :=
  ⟨by decide, by decide, by decide,
    C4_backpressure_retry ⟨fun i => i, 2, 254⟩ 0 2 ⟨254, 2, [254, 255]⟩ (by decide) (by decide)
      (by decide)⟩

/-- C5 (drain on empty is a no-op): when `buf_rx_in == buf_rx_out`, `trace_buf_push`, and with
it `trace_tick` and `swo_send_buffer`, makes no call to the transport and leaves the storage and
both indices as they were. -/
theorem C5_drain_empty (s : Fifo) (r : Nat) (h : s.buf_rx_in = s.buf_rx_out) :
    trace_buf_push s r = (s, []) ∧ trace_tick s r = (s, []) ∧ swo_send_buffer s r = (s, []) :=
  ⟨trace_buf_push_empty s r h, trace_buf_push_empty s r h, trace_buf_push_empty s r h⟩

theorem C5_drain_empty_witness :
    (7 : Nat) = 7 ∧ trace_buf_push ⟨fun i => i, 7, 7⟩ 3 = (⟨fun i => i, 7, 7⟩, []) ∧
      trace_tick ⟨fun i => i, 7, 7⟩ 3 = (⟨fun i => i, 7, 7⟩, []) ∧
      swo_send_buffer ⟨fun i => i, 7, 7⟩ 3 = (⟨fun i => i, 7, 7⟩, []) :=
  ⟨rfl, C5_drain_empty ⟨fun i => i, 7, 7⟩ 3 rfl⟩

set_option maxRecDepth 100000 in
/-- C9, as stated, fails: after `wrappedRun` 260 bytes were pushed and 192 drained, 68 are
pending (never more than 255 were), but `buf_rx_in = 4 < buf_rx_out = 192` and `available()`
is `256 - 192 = 64`. -/
theorem C9_available_counterexample :
    (run wrappedRun).stored.length = 260 ∧ (run wrappedRun).accepted.length = 192 ∧
      (run wrappedRun).fifo.buf_rx_in = 4 ∧ (run wrappedRun).fifo.buf_rx_out = 192 ∧
      available (run wrappedRun).fifo = 64 ∧
      ¬ (available (run wrappedRun).fifo =
          (run wrappedRun).stored.length - (run wrappedRun).accepted.length) := by
  decide

/-- C9, amended: after any sequence of invocations from the empty buffer, `available()` is
what `trace_buf_push` computes as `len` before clamping (when the ring is not empty), and it
equals bytes pushed minus bytes drained as long as `buf_rx_in >= buf_rx_out`; when
`buf_rx_in < buf_rx_out` it counts the first contiguous run only, and pushed minus drained is
`available() + buf_rx_in`. -/
theorem C9_available_amended (calls : List Call) :
    (if (run calls).fifo.buf_rx_in = (run calls).fifo.buf_rx_out then 0
        else run_length (run calls).fifo) = available (run calls).fifo ∧
      available (run calls).fifo +
          (if (run calls).fifo.buf_rx_in < (run calls).fifo.buf_rx_out then
            (run calls).fifo.buf_rx_in else 0) =
        (run calls).stored.length - (run calls).accepted.length := by
  obtain ⟨hr, hs⟩ := run_inv calls
  have hlen := congrArg List.length hs
  rw [List.length_append, unread_length] at hlen
  have hrl := run_length_eq (run calls).fifo hr
  obtain ⟨h1, h2⟩ := hr
  simp only [Fifo.pending, FIFO_SIZE, available] at *
  constructor
  · rw [hrl]
    split_ifs <;> omega
  · split_ifs <;> omega

/-- C10, as stated, fails: with 100 unread bytes from index 0 and a transport that accepts both
chunks, the first `trace_buf_push` sends 64 bytes and the second, with nothing pushed in
between, calls the transport again and moves `buf_rx_out` from 64 to 100. -/
theorem C10_idempotence_counterexample :
    (trace_buf_push ⟨fun _ => 0, 100, 0⟩ 64).1.buf_rx_out = 64 ∧
      (trace_buf_push (trace_buf_push ⟨fun _ => 0, 100, 0⟩ 64).1 36).1.buf_rx_out = 100 ∧
      (trace_buf_push (trace_buf_push ⟨fun _ => 0, 100, 0⟩ 64).1 36).2.length = 1 ∧
      ¬ ((trace_buf_push (trace_buf_push ⟨fun _ => 0, 100, 0⟩ 64).1 36).1.buf_rx_out =
            (trace_buf_push ⟨fun _ => 0, 100, 0⟩ 64).1.buf_rx_out ∧
          (trace_buf_push (trace_buf_push ⟨fun _ => 0, 100, 0⟩ 64).1 36).2 = []) := by
  decide

/-- C10, amended: for a buffer with both indices in `[0,256)`, when `trace_buf_push` is invoked
twice in succession with nothing pushed in between, the second invocation is a no-op (no call
to the transport, state unchanged) if the first left the ring empty, that is if the ring was
empty already or its `p` unread bytes were one contiguous run of at most 64 bytes
(`p <= 64` and `buf_rx_out + p <= 256`) that the transport accepted in full; in every other
case the second invocation calls the transport exactly once. -/
theorem C10_second_drain (s : Fifo) (r1 r2 : Nat) (h : s.InRange) :
    (s.buf_rx_in = s.buf_rx_out ∨
        (r1 = s.pending ∧ s.pending ≤ 64 ∧ s.buf_rx_out + s.pending ≤ 256) →
      trace_buf_push (trace_buf_push s r1).1 r2 = ((trace_buf_push s r1).1, [])) ∧
    (¬ (s.buf_rx_in = s.buf_rx_out ∨
        (r1 = s.pending ∧ s.pending ≤ 64 ∧ s.buf_rx_out + s.pending ≤ 256)) →
      (trace_buf_push (trace_buf_push s r1).1 r2).2.length = 1) := by
  have key : (trace_buf_push s r1).1.buf_rx_in = (trace_buf_push s r1).1.buf_rx_out ↔
      (s.buf_rx_in = s.buf_rx_out ∨
        (r1 = s.pending ∧ s.pending ≤ 64 ∧ s.buf_rx_out + s.pending ≤ 256)) := by
    by_cases he : s.buf_rx_in = s.buf_rx_out
    · rw [trace_buf_push_empty s r1 he]
      simp [he]
    · have hc := chunk_length_eq s h
      have hadv := advance_eq s h he
      obtain ⟨h1, h2⟩ := h
      by_cases hr : r1 = chunk_length s
      · rw [trace_buf_push_accept s r1 he hr]
        simp only [hadv, hr]
        simp only [Fifo.pending, FIFO_SIZE] at *
        split at hc <;> omega
      · rw [trace_buf_push_reject s r1 he hr]
        simp only [Fifo.pending, FIFO_SIZE] at *
        split at hc <;> omega
  constructor
  · intro hc
    exact trace_buf_push_empty _ r2 (key.mpr hc)
  · intro hc
    have hne : (trace_buf_push s r1).1.buf_rx_in ≠ (trace_buf_push s r1).1.buf_rx_out :=
      fun he => hc (key.mp he)
    by_cases hr : r2 = chunk_length (trace_buf_push s r1).1
    · rw [trace_buf_push_accept _ r2 hne hr]; rfl
    · rw [trace_buf_push_reject _ r2 hne hr]; rfl

theorem C10_second_drain_witness :
    Fifo.InRange ⟨fun i => i, 0, 254⟩ ∧
    ((0 : Nat) = 254 ∨
        (2 = Fifo.pending ⟨fun i => i, 0, 254⟩ ∧ Fifo.pending ⟨fun i => i, 0, 254⟩ ≤ 64 ∧
          254 + Fifo.pending ⟨fun i => i, 0, 254⟩ ≤ 256)) ∧
      (trace_buf_push (trace_buf_push ⟨fun i => i, 0, 254⟩ 2).1 5).2 = [] :=
  ⟨by decide, by decide, congrArg Prod.snd
    ((C10_second_drain ⟨fun i => i, 0, 254⟩ 2 5 ⟨by decide, by decide⟩).1 (by decide))⟩

/-! ## A transport that accepts, and more on the capture loop -/

theorem accepts_iff (s : Fifo) (r : Nat) (hne : s.buf_rx_in ≠ s.buf_rx_out) :
    Accepts r (trace_buf_push s r).2 ↔ r = chunk_length s := by
  by_cases hr : r = chunk_length s
  · rw [trace_buf_push_accept s r hne hr]
    simp [Accepts, hr]
  · rw [trace_buf_push_reject s r hne hr]
    simp [Accepts, hr]

/-- An accepted chunk shortens the unread bytes by its length. -/
theorem accept_pending (s : Fifo) (h : s.InRange) (hne : s.buf_rx_in ≠ s.buf_rx_out) :
    (trace_buf_push s (chunk_length s)).1.pending + chunk_length s = s.pending := by
  obtain ⟨_, _, hp, _⟩ := chunk_length_bounds s h hne
  rw [trace_buf_push_accept s _ hne rfl, advance_eq s h hne]
  obtain ⟨h1, h2⟩ := h
  simp only [Fifo.pending, FIFO_SIZE] at *
  omega

theorem trace_buf_push_frame (s : Fifo) (r : Nat) :
    (trace_buf_push s r).1.buf_rx_in = s.buf_rx_in ∧ (trace_buf_push s r).1.buf_rx = s.buf_rx := by
  simp only [trace_buf_push]
  split
  · exact ⟨rfl, rfl⟩
  · split <;> exact ⟨rfl, rfl⟩

theorem loop_out (rx : List Nat) : ∀ (s : Fifo) (flush : Bool),
    (SWO_UART_ISR_loop s flush rx).fifo.buf_rx_out = s.buf_rx_out := by
  induction rx with
  | nil => intro s flush; rfl
  | cons c rx ih =>
    intro s flush
    simp only [SWO_UART_ISR_loop]
    split
    · rw [ih]
      split <;> rfl
    · rfl

theorem loop_stored (rx : List Nat) : ∀ (s : Fifo) (flush : Bool), s.InRange →
    (SWO_UART_ISR_loop s flush rx).stored = (rx.take (255 - s.pending)).map (· % 256) := by
  induction rx with
  | nil => intro s flush _; simp [loop_nil]
  | cons c rx ih =>
    intro s flush h
    by_cases hfull : (s.buf_rx_in + 1) % FIFO_SIZE = s.buf_rx_out
    · rw [loop_cons_full s flush c rx hfull]
      simp [(full_iff_pending s h).mp hfull]
    · rw [loop_cons_store s flush c rx h.1 hfull]
      have hlt : s.pending < 255 := by
        have := pending_le s
        have := (full_iff_pending s h).not.mp hfull
        omega
      obtain ⟨k, hk⟩ : ∃ k, 255 - s.pending = k + 1 := ⟨254 - s.pending, by omega⟩
      simp only [ih (s.store c) flush (store_inRange s c h), store_pending s c h hfull, hk,
        List.take_succ_cons, List.map_cons]
      congr 3
      omega

theorem loop_rx (rx : List Nat) : ∀ (s : Fifo) (flush : Bool), s.InRange →
    (SWO_UART_ISR_loop s flush rx).rx = rx.drop (256 - s.pending) := by
  induction rx with
  | nil => intro s flush _; simp [loop_nil]
  | cons c rx ih =>
    intro s flush h
    by_cases hfull : (s.buf_rx_in + 1) % FIFO_SIZE = s.buf_rx_out
    · rw [loop_cons_full s flush c rx hfull]
      simp [(full_iff_pending s h).mp hfull]
    · rw [loop_cons_store s flush c rx h.1 hfull]
      have hlt : s.pending < 255 := by
        have := pending_le s
        have := (full_iff_pending s h).not.mp hfull
        omega
      obtain ⟨k, hk⟩ : ∃ k, 256 - s.pending = k + 1 := ⟨255 - s.pending, by omega⟩
      simp only [ih (s.store c) flush (store_inRange s c h), store_pending s c h hfull, hk,
        List.drop_succ_cons]
      congr 1
      omega

theorem loop_pending (rx : List Nat) (s : Fifo) (flush : Bool) (h : s.InRange) :
    (SWO_UART_ISR_loop s flush rx).fifo.pending = s.pending + min rx.length (255 - s.pending) := by
  have hu := congrArg List.length (loop_spec rx s flush h).2.1
  rw [List.length_append, unread_length, unread_length, loop_stored_length rx s flush h] at hu
  exact hu

/-- One drain of a non-empty ring whose chunk the transport takes whole, in closed form. -/
theorem accept_step (s : Fifo) (r : Nat) (h : s.InRange) (hne : s.buf_rx_in ≠ s.buf_rx_out)
    (ha : Accepts r (trace_buf_push s r).2) :
    (trace_buf_push s r).1.buf_rx_in = s.buf_rx_in ∧
      (trace_buf_push s r).1.buf_rx_out = (s.buf_rx_out + chunk_length s) % 256 ∧
      (trace_buf_push s r).2.map (fun p => (p.offset, p.len)) =
        [(s.buf_rx_out, chunk_length s)] ∧
      chunk_length s =
        (if s.buf_rx_in > s.buf_rx_out then min 64 (s.buf_rx_in - s.buf_rx_out)
          else min 64 (256 - s.buf_rx_out)) := by
  have hr := (accepts_iff s r hne).mp ha
  have hadv := advance_eq s h hne
  simp only [FIFO_SIZE] at hadv
  rw [trace_buf_push_accept s r hne hr]
  exact ⟨rfl, hadv, rfl, chunk_length_eq s h⟩

/-- The chunk a drain offers is the beginning of the unread bytes. -/
theorem read_eq_take (s : Fifo) (h : s.InRange) (hne : s.buf_rx_in ≠ s.buf_rx_out) :
    s.read s.buf_rx_out (chunk_length s) = s.unread.take (chunk_length s) := by
  obtain ⟨_, _, hp, ho⟩ := chunk_length_bounds s h hne
  have hs := unread_split s.buf_rx s.buf_rx_out s.pending (chunk_length s) hp ho
  simp only [Fifo.unread, Fifo.read]
  rw [hs, List.take_left']
  simp

theorem take_min_length (q : List Nat) (k : Nat) : q.take (min q.length k) = q.take k := by
  rcases le_total q.length k with hle | hle
  · rw [Nat.min_eq_left hle, List.take_of_length_le hle, List.take_of_length_le (le_refl _)]
  · rw [Nat.min_eq_right hle]

theorem drop_min_length (q : List Nat) (k : Nat) : q.drop (min q.length k) = q.drop k := by
  rcases le_total q.length k with hle | hle
  · rw [Nat.min_eq_left hle, List.drop_of_length_le hle, List.drop_of_length_le (le_refl _)]
  · rw [Nat.min_eq_right hle]

/-! ## Counting the drains that are left -/

theorem chunksLeft_le (s : Fifo) (h : s.InRange) : chunksLeft s ≤ 5 := by
  obtain ⟨h1, h2⟩ := h
  simp only [chunksLeft, FIFO_SIZE] at *
  split_ifs <;> omega

theorem chunksLeft_eq_zero (s : Fifo) (h : s.InRange) :
    chunksLeft s = 0 ↔ s.buf_rx_in = s.buf_rx_out := by
  obtain ⟨h1, h2⟩ := h
  simp only [chunksLeft, FIFO_SIZE] at *
  split_ifs <;> omega

/-- An accepted chunk is one chunk less to go. -/
theorem chunksLeft_step (s : Fifo) (r : Nat) (h : s.InRange)
    (hne : s.buf_rx_in ≠ s.buf_rx_out) (ha : Accepts r (trace_buf_push s r).2) :
    chunksLeft (trace_buf_push s r).1 + 1 = chunksLeft s := by
  obtain ⟨e1, e2, _, e4⟩ := accept_step s r h hne ha
  obtain ⟨h1, h2⟩ := h
  simp only [chunksLeft, FIFO_SIZE, e1, e2, e4] at *
  split_ifs <;> omega

theorem pushes_inRange (rets : List Nat) : ∀ s : Fifo, s.InRange → (pushes s rets).InRange := by
  induction rets with
  | nil => intro s h; exact h
  | cons r rets ih => intro s h; exact ih _ (trace_buf_push_inRange s r h)

theorem chunksLeft_pushes (rets : List Nat) : ∀ s : Fifo, s.InRange → AllAccepted s rets →
    chunksLeft (pushes s rets) = chunksLeft s - rets.length := by
  induction rets with
  | nil => intro s _ _; rfl
  | cons r rets ih =>
    intro s h ha
    obtain ⟨ha1, ha2⟩ := ha
    have hi := ih _ (trace_buf_push_inRange s r h) ha2
    simp only [pushes, List.length_cons, hi]
    by_cases he : s.buf_rx_in = s.buf_rx_out
    · rw [trace_buf_push_empty s r he, (chunksLeft_eq_zero s h).mpr he]
      omega
    · have := chunksLeft_step s r h he ha1
      omega

/-! ## The claims, continued -/

/-- C11, as stated, fails: with `buf_rx_out = 100` and `buf_rx_in = 50` the unread bytes straddle
the end of the storage, the transport takes both chunks whole, and after two `trace_buf_push`
invocations `buf_rx_out` is 228 and the ring is not empty. -/
theorem C11_two_drains_counterexample :
    Fifo.InRange ⟨fun _ => 0, 50, 100⟩ ∧ (50 : Nat) < 100 ∧ 1 ≤ (50 : Nat) ∧
      AllAccepted ⟨fun _ => 0, 50, 100⟩ [64, 64] ∧
      (pushes ⟨fun _ => 0, 50, 100⟩ [64, 64]).buf_rx_out = 228 ∧
      ¬ ((pushes ⟨fun _ => 0, 50, 100⟩ [64, 64]).buf_rx_in =
          (pushes ⟨fun _ => 0, 50, 100⟩ [64, 64]).buf_rx_out) := by
  decide

/-- C11, amended: for a ring with both indices in `[0,256)` whose unread bytes straddle the end
of the storage (`buf_rx_in < buf_rx_out`, `buf_rx_in >= 1`) and a transport that takes every
chunk whole, each of two consecutive `trace_buf_push` invocations offers at most 64 bytes, the
ring is not empty after the first, and it is empty after the second exactly when each of the
two runs fits in one chunk (`256 - buf_rx_out <= 64` and `buf_rx_in <= 64`). -/
theorem C11_two_drains (s : Fifo) (r1 r2 : Nat) (h : s.InRange)
    (hw : s.buf_rx_in < s.buf_rx_out) (h1 : 1 ≤ s.buf_rx_in) (ha : AllAccepted s [r1, r2]) :
    (∀ p ∈ (trace_buf_push s r1).2 ++ (trace_buf_push (trace_buf_push s r1).1 r2).2,
        p.len ≤ 64) ∧
      (trace_buf_push s r1).1.buf_rx_in ≠ (trace_buf_push s r1).1.buf_rx_out ∧
      ((pushes s [r1, r2]).buf_rx_in = (pushes s [r1, r2]).buf_rx_out ↔
        256 - s.buf_rx_out ≤ 64 ∧ s.buf_rx_in ≤ 64) := by
  obtain ⟨ha1, ha2, _⟩ := ha
  have hne : s.buf_rx_in ≠ s.buf_rx_out := by omega
  obtain ⟨e1, e2, e3, e4⟩ := accept_step s r1 h hne ha1
  have hr1 := trace_buf_push_inRange s r1 h
  have hne1 : (trace_buf_push s r1).1.buf_rx_in ≠ (trace_buf_push s r1).1.buf_rx_out := by
    obtain ⟨hi, ho⟩ := h
    simp only [FIFO_SIZE] at hi ho
    rw [e1, e2, e4]
    split_ifs <;> omega
  obtain ⟨f1, f2, f3, f4⟩ := accept_step _ r2 hr1 hne1 ha2
  refine ⟨?_, hne1, ?_⟩
  · intro p hp
    have hmem : (p.offset, p.len) ∈
        ((trace_buf_push s r1).2 ++ (trace_buf_push (trace_buf_push s r1).1 r2).2).map
          (fun p => (p.offset, p.len)) := List.mem_map_of_mem _ hp
    rw [List.map_append, e3, f3] at hmem
    simp only [List.singleton_append, List.mem_cons, Prod.mk.injEq, List.mem_singleton,
      List.mem_nil_iff, or_false] at hmem
    rcases hmem with ⟨_, hl⟩ | ⟨_, hl⟩
    · rw [hl, e4]; split_ifs <;> omega
    · rw [hl, f4]; split_ifs <;> omega
  · simp only [pushes]
    have g1 := (trace_buf_push_frame (trace_buf_push s r1).1 r2).1
    rw [g1, f2, f4, e1, e2, e4]
    obtain ⟨hi, ho⟩ := h
    simp only [FIFO_SIZE] at hi ho
    split_ifs <;> omega

theorem C11_two_drains_witness :
    Fifo.InRange ⟨fun i => i, 2, 254⟩ ∧ (2 : Nat) < 254 ∧ 1 ≤ (2 : Nat) ∧
      AllAccepted ⟨fun i => i, 2, 254⟩ [2, 2] ∧
      (∀ p ∈ (trace_buf_push ⟨fun i => i, 2, 254⟩ 2).2 ++
          (trace_buf_push (trace_buf_push ⟨fun i => i, 2, 254⟩ 2).1 2).2, p.len ≤ 64) ∧
      (trace_buf_push ⟨fun i => i, 2, 254⟩ 2).1.buf_rx_in ≠
        (trace_buf_push ⟨fun i => i, 2, 254⟩ 2).1.buf_rx_out ∧
      ((pushes ⟨fun i => i, 2, 254⟩ [2, 2]).buf_rx_in =
          (pushes ⟨fun i => i, 2, 254⟩ [2, 2]).buf_rx_out ↔ 256 - 254 ≤ 64 ∧ 2 ≤ 64) :=
  ⟨by decide, by decide, by decide, by decide,
    C11_two_drains ⟨fun i => i, 2, 254⟩ 2 2 (by decide) (by decide) (by decide) (by decide)⟩

/-- C12 (wrapped-buffer scenario): for a ring with `buf_rx_in < buf_rx_out`,
`256 - buf_rx_out <= 64` and `1 <= buf_rx_in <= 64` (read index 254 and write index 2, say) and
a transport that takes every chunk whole, the first `trace_buf_push` offers only the run from
`buf_rx_out` to the end of the storage (offset `buf_rx_out`, length `256 - buf_rx_out`) and
leaves `buf_rx_out = 0`; the second offers the run at offset 0 of length `buf_rx_in` and leaves
the ring empty. -/
theorem C12_wrapped_scenario (s : Fifo) (r1 r2 : Nat) (hlt : s.buf_rx_out < 256)
    (hw : s.buf_rx_in < s.buf_rx_out) (ho : 256 - s.buf_rx_out ≤ 64) (h1 : 1 ≤ s.buf_rx_in)
    (h64 : s.buf_rx_in ≤ 64) (ha : AllAccepted s [r1, r2]) :
    (trace_buf_push s r1).2.map (fun p => (p.offset, p.len)) =
        [(s.buf_rx_out, 256 - s.buf_rx_out)] ∧
      (trace_buf_push s r1).1.buf_rx_out = 0 ∧
      (trace_buf_push (trace_buf_push s r1).1 r2).2.map (fun p => (p.offset, p.len)) =
        [(0, s.buf_rx_in)] ∧
      (pushes s [r1, r2]).buf_rx_in = (pushes s [r1, r2]).buf_rx_out := by
  obtain ⟨ha1, ha2, _⟩ := ha
  have h : s.InRange := ⟨by simp only [FIFO_SIZE]; omega, hlt⟩
  have hne : s.buf_rx_in ≠ s.buf_rx_out := by omega
  obtain ⟨e1, e2, e3, e4⟩ := accept_step s r1 h hne ha1
  have hc1 : chunk_length s = 256 - s.buf_rx_out := by
    rw [e4]; split_ifs <;> omega
  have hout1 : (trace_buf_push s r1).1.buf_rx_out = 0 := by
    rw [e2, hc1]; omega
  have hr1 := trace_buf_push_inRange s r1 h
  have hne1 : (trace_buf_push s r1).1.buf_rx_in ≠ (trace_buf_push s r1).1.buf_rx_out := by
    rw [e1, hout1]; omega
  obtain ⟨f1, f2, f3, f4⟩ := accept_step _ r2 hr1 hne1 ha2
  have hc2 : chunk_length (trace_buf_push s r1).1 = s.buf_rx_in := by
    rw [f4, e1, hout1]; split_ifs <;> omega
  refine ⟨by rw [e3, hc1], hout1, by rw [f3, hout1, hc2], ?_⟩
  simp only [pushes]
  rw [f1, f2, e1, hout1, hc2]
  omega

theorem C12_wrapped_scenario_witness :
    (254 : Nat) < 256 ∧ (2 : Nat) < 254 ∧ 256 - 254 ≤ 64 ∧ 1 ≤ (2 : Nat) ∧ (2 : Nat) ≤ 64 ∧
      AllAccepted ⟨fun i => i, 2, 254⟩ [2, 2] ∧
      (trace_buf_push ⟨fun i => i, 2, 254⟩ 2).2.map (fun p => (p.offset, p.len)) =
        [(254, 256 - 254)] ∧
      (trace_buf_push ⟨fun i => i, 2, 254⟩ 2).1.buf_rx_out = 0 ∧
      (trace_buf_push (trace_buf_push ⟨fun i => i, 2, 254⟩ 2).1 2).2.map
          (fun p => (p.offset, p.len)) = [(0, 2)] ∧
      (pushes ⟨fun i => i, 2, 254⟩ [2, 2]).buf_rx_in =
        (pushes ⟨fun i => i, 2, 254⟩ [2, 2]).buf_rx_out :=
  ⟨by decide, by decide, by decide, by decide, by decide, by decide,
    C12_wrapped_scenario ⟨fun i => i, 2, 254⟩ 2 2 (by decide) (by decide) (by decide)
      (by decide) (by decide) (by decide)⟩

/-- C13 (single-drain scenario): for an unwrapped ring (`buf_rx_out < buf_rx_in`, indices in
`[0,256)`) with at most 64 bytes pending (7 bytes from index 0, say) and a transport that takes
the chunk whole, one `trace_buf_push` offers all pending bytes and empties the ring: it
advances `buf_rx_out` by exactly the pending count, to `buf_rx_in`. -/
theorem C13_single_drain (s : Fifo) (r : Nat) (hlt : s.buf_rx_in < 256)
    (hu : s.buf_rx_out < s.buf_rx_in) (h64 : s.buf_rx_in - s.buf_rx_out ≤ 64)
    (ha : Accepts r (trace_buf_push s r).2) :
    (trace_buf_push s r).2.map (fun p => (p.offset, p.len)) =
        [(s.buf_rx_out, s.buf_rx_in - s.buf_rx_out)] ∧
      (trace_buf_push s r).1.buf_rx_out = s.buf_rx_out + (s.buf_rx_in - s.buf_rx_out) ∧
      (trace_buf_push s r).1.buf_rx_out = (trace_buf_push s r).1.buf_rx_in := by
  have h : s.InRange := ⟨hlt, by simp only [FIFO_SIZE]; omega⟩
  have hne : s.buf_rx_in ≠ s.buf_rx_out := by omega
  obtain ⟨e1, e2, e3, e4⟩ := accept_step s r h hne ha
  have hc : chunk_length s = s.buf_rx_in - s.buf_rx_out := by
    rw [e4]; split_ifs <;> omega
  refine ⟨by rw [e3, hc], ?_, ?_⟩
  · rw [e2, hc]; omega
  · rw [e1, e2, hc]; omega

theorem C13_single_drain_witness :
    (7 : Nat) < 256 ∧ (0 : Nat) < 7 ∧ 7 - 0 ≤ 64 ∧
      Accepts 7 (trace_buf_push ⟨fun i => i, 7, 0⟩ 7).2 ∧
      (trace_buf_push ⟨fun i => i, 7, 0⟩ 7).2.map (fun p => (p.offset, p.len)) =
        [(0, 7 - 0)] ∧
      (trace_buf_push ⟨fun i => i, 7, 0⟩ 7).1.buf_rx_out = 0 + (7 - 0) ∧
      (trace_buf_push ⟨fun i => i, 7, 0⟩ 7).1.buf_rx_out =
        (trace_buf_push ⟨fun i => i, 7, 0⟩ 7).1.buf_rx_in :=
  ⟨by decide, by decide, by decide, by decide,
    C13_single_drain ⟨fun i => i, 7, 0⟩ 7 (by decide) (by decide) (by decide) (by decide)⟩

/-- C14 (index range invariant): if `buf_rx_in` and `buf_rx_out` are both in `[0,256)`, they
still are after `SWO_UART_ISR`, whatever the UART queue, the idle flag and the transport, and
after `trace_buf_push`, whatever the transport returns; the initial state has both at 0, and so
both are in `[0,256)` in every state a run from it reaches. -/
theorem C14_index_range (s : Fifo) (rt : Bool) (rx : List Nat) (ret r : Nat)
    (calls : List Call) (hin : s.buf_rx_in < 256) (hout : s.buf_rx_out < 256) :
    ((SWO_UART_ISR s rt rx ret).fifo.buf_rx_in < 256 ∧
        (SWO_UART_ISR s rt rx ret).fifo.buf_rx_out < 256) ∧
      ((trace_buf_push s r).1.buf_rx_in < 256 ∧ (trace_buf_push s r).1.buf_rx_out < 256) ∧
      (Fifo.init.buf_rx_in = 0 ∧ Fifo.init.buf_rx_out = 0) ∧
      ((run calls).fifo.buf_rx_in < 256 ∧ (run calls).fifo.buf_rx_out < 256) :=
  ⟨SWO_UART_ISR_inRange s rt rx ret ⟨hin, hout⟩, trace_buf_push_inRange s r ⟨hin, hout⟩,
    ⟨rfl, rfl⟩, (run_inv calls).1⟩

theorem C14_index_range_witness :
    (255 : Nat) < 256 ∧ (3 : Nat) < 256 ∧
      ((SWO_UART_ISR ⟨fun i => i, 255, 3⟩ true [1, 2] 64).fifo.buf_rx_in < 256 ∧
        (SWO_UART_ISR ⟨fun i => i, 255, 3⟩ true [1, 2] 64).fifo.buf_rx_out < 256) ∧
      ((trace_buf_push ⟨fun i => i, 255, 3⟩ 64).1.buf_rx_in < 256 ∧
        (trace_buf_push ⟨fun i => i, 255, 3⟩ 64).1.buf_rx_out < 256) ∧
      (Fifo.init.buf_rx_in = 0 ∧ Fifo.init.buf_rx_out = 0) ∧
      ((run [.isr true [1, 2] 2]).fifo.buf_rx_in < 256 ∧
        (run [.isr true [1, 2] 2]).fifo.buf_rx_out < 256) :=
  ⟨by decide, by decide,
    C14_index_range ⟨fun i => i, 255, 3⟩ true [1, 2] 64 64 [.isr true [1, 2] 2] (by decide)
      (by decide)⟩

/-- C15 (transfer-attempt bounds): for a non-empty ring with both indices in `[0,256)`, the
run `(offset, length)` that `trace_buf_push` offers starts at `buf_rx_out` and has
`1 <= length <= 64`, `length <= (buf_rx_in - buf_rx_out) mod 256` and `offset + length <= 256`:
it lies inside the storage, does not straddle the wrap point, and its bytes are the first
`length` unread bytes. -/
theorem C15_transfer_bounds (s : Fifo) (r : Nat) (h : s.InRange)
    (hne : s.buf_rx_in ≠ s.buf_rx_out) :
    ∃ p : Packet, (trace_buf_push s r).2 = [p] ∧ p.offset = s.buf_rx_out ∧
      1 ≤ p.len ∧ p.len ≤ 64 ∧ p.len ≤ (s.buf_rx_in + 256 - s.buf_rx_out) % 256 ∧
      p.offset + p.len ≤ 256 ∧ p.data = s.unread.take p.len := by
  obtain ⟨b1, b2, b3, b4⟩ := chunk_length_bounds s h hne
  simp only [Fifo.pending, FIFO_SIZE] at b3 b4
  have hd := read_eq_take s h hne
  by_cases hr : r = chunk_length s
  · exact ⟨_, congrArg Prod.snd (trace_buf_push_accept s r hne hr), rfl, b1, b2, b3, b4, hd⟩
  · exact ⟨_, congrArg Prod.snd (trace_buf_push_reject s r hne hr), rfl, b1, b2, b3, b4, hd⟩

theorem C15_transfer_bounds_witness :
    Fifo.InRange ⟨fun i => i, 10, 200⟩ ∧ (10 : Nat) ≠ 200 ∧
      ∃ p : Packet, (trace_buf_push ⟨fun i => i, 10, 200⟩ 5).2 = [p] ∧ p.offset = 200 ∧
        1 ≤ p.len ∧ p.len ≤ 64 ∧ p.len ≤ (10 + 256 - 200) % 256 ∧
        p.offset + p.len ≤ 256 ∧ p.data = (Fifo.unread ⟨fun i => i, 10, 200⟩).take p.len :=
  ⟨by decide, by decide,
    C15_transfer_bounds ⟨fun i => i, 10, 200⟩ 5 ⟨by decide, by decide⟩ (by decide)⟩

/-- C16 (single-owner frame): in every state and for every transport return value,
`trace_buf_push` leaves `buf_rx_in` and every cell of `buf_rx` as they were; in every state and
for every UART queue the capture loop of `SWO_UART_ISR` leaves `buf_rx_out` as it was; so
`SWO_UART_ISR` calls `trace_buf_push` at most once, leaves `buf_rx_out` unchanged if it does not
call it, and otherwise leaves it as that one call, made on the state at loop exit, does. -/
theorem C16_single_owner (s : Fifo) (r : Nat) (rt : Bool) (rx : List Nat) (ret : Nat) :
    (trace_buf_push s r).1.buf_rx_in = s.buf_rx_in ∧
      (trace_buf_push s r).1.buf_rx = s.buf_rx ∧
      (SWO_UART_ISR_loop s rt rx).fifo.buf_rx_out = s.buf_rx_out ∧
      (SWO_UART_ISR s rt rx ret).drains ≤ 1 ∧
      (SWO_UART_ISR s rt rx ret).fifo.buf_rx_out =
        (if (SWO_UART_ISR s rt rx ret).drains = 0 then s.buf_rx_out
          else (trace_buf_push (SWO_UART_ISR_loop s rt rx).fifo ret).1.buf_rx_out) := by
  refine ⟨(trace_buf_push_frame s r).1, (trace_buf_push_frame s r).2, loop_out rx s rt, ?_⟩
  by_cases hf : (SWO_UART_ISR_loop s rt rx).flush = true
  · rw [SWO_UART_ISR_flush s rt rx ret hf]
    simp
  · rw [SWO_UART_ISR_quiet s rt rx ret hf]
    simp [loop_out rx s rt]

/-- C17 (capture step): for a ring with both indices in `[0,256)` holding `p` unread bytes and a
UART queue `q`, after the capture loop of `SWO_UART_ISR` the unread bytes are the old ones
followed by the first `min(|q|, 255 - p)` bytes of `q`, in arrival order, each reduced to 8
bits, and these are the bytes stored; if `q` had at least `255 - p` bytes the ring is then
full. So from the empty ring exactly 255 bytes are stored, and a 256th is not. -/
theorem C17_capture_step (s : Fifo) (rt : Bool) (q : List Nat) (h : s.InRange) :
    (SWO_UART_ISR_loop s rt q).fifo.unread =
        s.unread ++ (q.take (min q.length (255 - s.pending))).map (· % 256) ∧
      (SWO_UART_ISR_loop s rt q).stored =
        (q.take (min q.length (255 - s.pending))).map (· % 256) ∧
      (SWO_UART_ISR_loop s rt q).fifo.pending = s.pending + min q.length (255 - s.pending) ∧
      (255 - s.pending ≤ q.length →
        ((SWO_UART_ISR_loop s rt q).fifo.buf_rx_in + 1) % 256 =
          (SWO_UART_ISR_loop s rt q).fifo.buf_rx_out) := by
  obtain ⟨hr, hu, _⟩ := loop_spec q s rt h
  have hst := loop_stored q s rt h
  have hp := loop_pending q s rt h
  rw [take_min_length]
  refine ⟨by rw [hu, hst], hst, hp, ?_⟩
  intro hq
  have hfull := full_iff_pending (SWO_UART_ISR_loop s rt q).fifo hr
  simp only [FIFO_SIZE] at hfull
  rw [hfull, hp]
  have := pending_le s
  omega

theorem C17_capture_step_witness :
    Fifo.InRange ⟨fun _ => 0, 253, 0⟩ ∧
      (SWO_UART_ISR_loop ⟨fun _ => 0, 253, 0⟩ false [257, 2, 3]).fifo.unread =
        Fifo.unread ⟨fun _ => 0, 253, 0⟩ ++
          ([257, 2, 3].take (min [257, 2, 3].length
            (255 - Fifo.pending ⟨fun _ => 0, 253, 0⟩))).map (· % 256) ∧
      (SWO_UART_ISR_loop ⟨fun _ => 0, 253, 0⟩ false [257, 2, 3]).stored =
        ([257, 2, 3].take (min [257, 2, 3].length
          (255 - Fifo.pending ⟨fun _ => 0, 253, 0⟩))).map (· % 256) ∧
      (SWO_UART_ISR_loop ⟨fun _ => 0, 253, 0⟩ false [257, 2, 3]).fifo.pending =
        Fifo.pending ⟨fun _ => 0, 253, 0⟩ +
          min [257, 2, 3].length (255 - Fifo.pending ⟨fun _ => 0, 253, 0⟩) ∧
      (255 - Fifo.pending ⟨fun _ => 0, 253, 0⟩ ≤ [257, 2, 3].length →
        ((SWO_UART_ISR_loop ⟨fun _ => 0, 253, 0⟩ false [257, 2, 3]).fifo.buf_rx_in + 1) % 256 =
          (SWO_UART_ISR_loop ⟨fun _ => 0, 253, 0⟩ false [257, 2, 3]).fifo.buf_rx_out) :=
  ⟨by decide, C17_capture_step ⟨fun _ => 0, 253, 0⟩ false [257, 2, 3] ⟨by decide, by decide⟩⟩

/-- C18 (hardware consumption on overflow): for a ring with both indices in `[0,256)` holding
`p` unread bytes and a UART queue of `n` bytes, the capture loop of `SWO_UART_ISR` ends having
taken exactly the first `min(n, 256 - p)` bytes off the queue; when `n > 255 - p` it stored
`255 - p` of them and dropped exactly one, the byte popped when the ring was found full, and
the other `n - (256 - p)` bytes are still in the queue. -/
theorem C18_hardware_consumption (s : Fifo) (rt : Bool) (q : List Nat) (h : s.InRange) :
    (SWO_UART_ISR_loop s rt q).rx = q.drop (min q.length (256 - s.pending)) ∧
      q.length - (SWO_UART_ISR_loop s rt q).rx.length = min q.length (256 - s.pending) ∧
      (q.length > 255 - s.pending →
        (SWO_UART_ISR_loop s rt q).stored.length = 255 - s.pending ∧
        q.length - (SWO_UART_ISR_loop s rt q).rx.length -
            (SWO_UART_ISR_loop s rt q).stored.length = 1 ∧
        (SWO_UART_ISR_loop s rt q).rx.length = q.length - (256 - s.pending)) ∧
      (q.length ≤ 255 - s.pending →
        (SWO_UART_ISR_loop s rt q).stored.length = q.length ∧
        (SWO_UART_ISR_loop s rt q).rx = []) := by
  have hrx := loop_rx q s rt h
  have hlen := loop_stored_length q s rt h
  have hp := pending_le s
  have hrl : (SWO_UART_ISR_loop s rt q).rx.length = q.length - (256 - s.pending) := by
    rw [hrx, List.length_drop]
  rw [drop_min_length]
  refine ⟨hrx, by omega, fun hq => ⟨by omega, by omega, hrl⟩, fun hq => ⟨by omega, ?_⟩⟩
  rw [hrx]
  exact List.drop_of_length_le (by omega)

theorem C18_hardware_consumption_witness :
    Fifo.InRange ⟨fun _ => 0, 253, 0⟩ ∧
      (SWO_UART_ISR_loop ⟨fun _ => 0, 253, 0⟩ false [1, 2, 3, 4, 5]).rx =
        [1, 2, 3, 4, 5].drop
          (min [1, 2, 3, 4, 5].length (256 - Fifo.pending ⟨fun _ => 0, 253, 0⟩)) ∧
      (SWO_UART_ISR_loop ⟨fun _ => 0, 253, 0⟩ false [1, 2, 3, 4, 5]).rx = [4, 5] :=
  ⟨by decide,
    (C18_hardware_consumption ⟨fun _ => 0, 253, 0⟩ false [1, 2, 3, 4, 5]
      ⟨by decide, by decide⟩).1, by decide⟩

/-- C19 (bounded emptying): with a transport that takes every chunk whole and nothing captured
in between, a `trace_buf_push` on a non-empty ring with both indices in `[0,256)` offers one
chunk of at least one byte and lowers the unread count `(buf_rx_in - buf_rx_out) mod 256` by
exactly its length; every such ring is empty after five consecutive invocations (and stays so
after more); and four do not always do: from `buf_rx_out = 255`, `buf_rx_in = 254` the ring is
not empty after four. -/
theorem C19_bounded_emptying (s : Fifo) (r : Nat) (rets : List Nat) (h : s.InRange)
    (ha1 : Accepts r (trace_buf_push s r).2) (ha : AllAccepted s rets)
    (h5 : 5 ≤ rets.length) :
    (s.buf_rx_in = s.buf_rx_out ∨
        ∃ p : Packet, (trace_buf_push s r).2 = [p] ∧ 1 ≤ p.len ∧
          ((trace_buf_push s r).1.buf_rx_in + 256 - (trace_buf_push s r).1.buf_rx_out) % 256 +
              p.len =
            (s.buf_rx_in + 256 - s.buf_rx_out) % 256) ∧
      (pushes s rets).buf_rx_in = (pushes s rets).buf_rx_out ∧
      (AllAccepted ⟨fun _ => 0, 254, 255⟩ [1, 64, 64, 64] ∧
        (pushes ⟨fun _ => 0, 254, 255⟩ [1, 64, 64, 64]).buf_rx_in ≠
          (pushes ⟨fun _ => 0, 254, 255⟩ [1, 64, 64, 64]).buf_rx_out) := by
  refine ⟨?_, ?_, by decide, by decide⟩
  · by_cases he : s.buf_rx_in = s.buf_rx_out
    · exact Or.inl he
    · right
      have hr := (accepts_iff s r he).mp ha1
      have hpd := accept_pending s h he
      simp only [Fifo.pending, FIFO_SIZE] at hpd
      subst hr
      exact ⟨_, congrArg Prod.snd (trace_buf_push_accept s _ he rfl),
        (chunk_length_bounds s h he).1, hpd⟩
  · apply (chunksLeft_eq_zero _ (pushes_inRange rets s h)).mp
    rw [chunksLeft_pushes rets s h ha]
    have := chunksLeft_le s h
    omega

theorem C19_bounded_emptying_witness :
    Fifo.InRange ⟨fun _ => 0, 254, 255⟩ ∧
      Accepts 1 (trace_buf_push ⟨fun _ => 0, 254, 255⟩ 1).2 ∧
      AllAccepted ⟨fun _ => 0, 254, 255⟩ [1, 64, 64, 64, 62] ∧
      5 ≤ [1, 64, 64, 64, 62].length ∧
      (pushes ⟨fun _ => 0, 254, 255⟩ [1, 64, 64, 64, 62]).buf_rx_in =
        (pushes ⟨fun _ => 0, 254, 255⟩ [1, 64, 64, 64, 62]).buf_rx_out :=
  ⟨by decide, by decide, by decide, by decide,
    (C19_bounded_emptying ⟨fun _ => 0, 254, 255⟩ 1 [1, 64, 64, 64, 62] (by decide) (by decide)
      (by decide) (by decide)).2.1⟩

/-- C6 (flush trigger): for a buffer with both indices in `[0,256)` holding `p` unread bytes
and a UART queue of `n` bytes, `SWO_UART_ISR` calls `trace_buf_push` exactly once if the
receiver-timeout condition is asserted on entry or `n > 255 - p`: the ring and the transport
calls it leaves are those of one `trace_buf_push` on the state at the exit of the capture loop,
and when `n > 255 - p` that call offers the transport one chunk, at `buf_rx_out`. Otherwise it
calls neither `trace_buf_push` nor the transport and leaves the ring as the loop left it. -/
theorem C6_flush_trigger (s : Fifo) (rt : Bool) (rx : List Nat) (ret : Nat) (h : s.InRange) :
    (SWO_UART_ISR s rt rx ret).drains =
        (if rt = true ∨ rx.length > 255 - (s.buf_rx_in + 256 - s.buf_rx_out) % 256 then 1
          else 0) ∧
      (rt = true ∨ rx.length > 255 - (s.buf_rx_in + 256 - s.buf_rx_out) % 256 →
        (SWO_UART_ISR s rt rx ret).fifo =
            (trace_buf_push (SWO_UART_ISR_loop s rt rx).fifo ret).1 ∧
          (SWO_UART_ISR s rt rx ret).sent =
            (trace_buf_push (SWO_UART_ISR_loop s rt rx).fifo ret).2) ∧
      (rx.length > 255 - (s.buf_rx_in + 256 - s.buf_rx_out) % 256 →
        ∃ p : Packet, (SWO_UART_ISR s rt rx ret).sent = [p] ∧ p.offset = s.buf_rx_out ∧
          1 ≤ p.len ∧ p.len ≤ 64) ∧
      (¬ (rt = true ∨ rx.length > 255 - (s.buf_rx_in + 256 - s.buf_rx_out) % 256) →
        (SWO_UART_ISR s rt rx ret).sent = [] ∧
          (SWO_UART_ISR s rt rx ret).fifo = (SWO_UART_ISR_loop s rt rx).fifo) := by
  obtain ⟨hr, _, hf⟩ := loop_spec rx s rt h
  have hpl := loop_pending rx s rt h
  simp only [Fifo.pending, FIFO_SIZE] at hf
  have hflush : rt = true ∨ rx.length > 255 - (s.buf_rx_in + 256 - s.buf_rx_out) % 256 →
      (SWO_UART_ISR_loop s rt rx).flush = true := by
    intro hc
    rw [hf]
    rcases hc with hc | hc
    · simp [hc]
    · simp [show 255 - (s.buf_rx_in + 256 - s.buf_rx_out) % 256 < rx.length from hc]
  refine ⟨?_, ?_, ?_, ?_⟩
  · by_cases hc : rt = true ∨ rx.length > 255 - (s.buf_rx_in + 256 - s.buf_rx_out) % 256
    · rw [SWO_UART_ISR_flush s rt rx ret (hflush hc)]
      simp [hc]
    · have hfl : ¬ (SWO_UART_ISR_loop s rt rx).flush = true := by
        rw [hf]
        simp only [not_or, gt_iff_lt] at hc
        simp [hc.1, hc.2]
      rw [SWO_UART_ISR_quiet s rt rx ret hfl]
      simp [hc]
  · intro hc
    rw [SWO_UART_ISR_flush s rt rx ret (hflush hc)]
    exact ⟨rfl, rfl⟩
  · intro hc
    rw [SWO_UART_ISR_flush s rt rx ret (hflush (Or.inr hc))]
    have hne : (SWO_UART_ISR_loop s rt rx).fifo.buf_rx_in ≠
        (SWO_UART_ISR_loop s rt rx).fifo.buf_rx_out := by
      intro he
      have h0 := (empty_iff_pending _ hr).mp he
      have := pending_le s
      simp only [Fifo.pending, FIFO_SIZE] at hpl h0 hc this
      omega
    obtain ⟨b1, b2, _, _⟩ := chunk_length_bounds _ hr hne
    by_cases hret : ret = chunk_length (SWO_UART_ISR_loop s rt rx).fifo
    · exact ⟨_, congrArg Prod.snd (trace_buf_push_accept _ ret hne hret), loop_out rx s rt,
        b1, b2⟩
    · exact ⟨_, congrArg Prod.snd (trace_buf_push_reject _ ret hne hret), loop_out rx s rt,
        b1, b2⟩
  · intro hc
    have hfl : ¬ (SWO_UART_ISR_loop s rt rx).flush = true := by
      rw [hf]
      simp only [not_or, gt_iff_lt] at hc
      simp [hc.1, hc.2]
    rw [SWO_UART_ISR_quiet s rt rx ret hfl]
    exact ⟨rfl, rfl⟩

theorem C6_flush_trigger_witness :
    Fifo.InRange ⟨fun i => i, 254, 1⟩ ∧
      [7, 8, 9].length > 255 - (254 + 256 - 1) % 256 ∧
      (∃ p : Packet, (SWO_UART_ISR ⟨fun i => i, 254, 1⟩ false [7, 8, 9] 64).sent = [p] ∧
        p.offset = 1 ∧ 1 ≤ p.len ∧ p.len ≤ 64) ∧
      (SWO_UART_ISR ⟨fun i => i, 254, 1⟩ false [7, 8, 9] 64).drains = 1 ∧
      (SWO_UART_ISR ⟨fun i => i, 254, 1⟩ false [7, 8, 9] 64).sent.map
          (fun p => (p.offset, p.len)) = [(1, 64)] ∧
      (SWO_UART_ISR ⟨fun i => i, 254, 1⟩ false [7, 8, 9] 64).fifo.buf_rx_in = 0 ∧
      (SWO_UART_ISR ⟨fun i => i, 254, 1⟩ false [7, 8, 9] 64).fifo.buf_rx_out = 65 ∧
      (SWO_UART_ISR ⟨fun i => i, 254, 1⟩ false [7] 64).drains = 0 ∧
      (SWO_UART_ISR ⟨fun i => i, 254, 1⟩ false [7] 64).sent = [] :=
  ⟨by decide, by decide,
    (C6_flush_trigger ⟨fun i => i, 254, 1⟩ false [7, 8, 9] 64 ⟨by decide, by decide⟩).2.2.1
      (by decide),
    by decide, by decide, by decide, by decide, by decide, by decide⟩

/-- C7 (capture on a full ring): when the ring is full, `(buf_rx_in + 1) mod 256 == buf_rx_out`,
and the UART queue is not empty, then with or without the idle condition the capture loop of
`SWO_UART_ISR` stores nothing and leaves the ring as it was, `buf_rx_in` and the whole storage
included; and `SWO_UART_ISR` calls `trace_buf_push` exactly once: the ring and the transport
calls it leaves are those of `trace_buf_push` on the unchanged ring, which offers the transport
one chunk at `buf_rx_out` and leaves `buf_rx_in` and the storage as they were. -/
theorem C7_capture_on_full (s : Fifo) (rt : Bool) (c : Nat) (rx : List Nat) (ret : Nat)
    (hfull : (s.buf_rx_in + 1) % 256 = s.buf_rx_out) :
    (SWO_UART_ISR_loop s rt (c :: rx)).stored = [] ∧
      (SWO_UART_ISR_loop s rt (c :: rx)).fifo.buf_rx_in = s.buf_rx_in ∧
      (SWO_UART_ISR_loop s rt (c :: rx)).fifo.buf_rx = s.buf_rx ∧
      (SWO_UART_ISR s rt (c :: rx) ret).drains = 1 ∧
      (SWO_UART_ISR s rt (c :: rx) ret).stored = [] ∧
      (SWO_UART_ISR s rt (c :: rx) ret).fifo.buf_rx_in = s.buf_rx_in ∧
      (SWO_UART_ISR s rt (c :: rx) ret).fifo.buf_rx = s.buf_rx ∧
      (SWO_UART_ISR_loop s rt (c :: rx)).fifo = s ∧
      (SWO_UART_ISR s rt (c :: rx) ret).fifo = (trace_buf_push s ret).1 ∧
      (SWO_UART_ISR s rt (c :: rx) ret).sent = (trace_buf_push s ret).2 ∧
      (SWO_UART_ISR s rt (c :: rx) ret).sent =
        [⟨s.buf_rx_out, chunk_length s, s.read s.buf_rx_out (chunk_length s)⟩] ∧
      (SWO_UART_ISR s rt (c :: rx) ret).fifo.buf_rx_out =
        (if ret = chunk_length s then (s.buf_rx_out + chunk_length s) % U32 % FIFO_SIZE
          else s.buf_rx_out) := by
  have hl := loop_cons_full s rt c rx hfull
  have hfl : (SWO_UART_ISR_loop s rt (c :: rx)).flush = true := by rw [hl]
  have hne : s.buf_rx_in ≠ s.buf_rx_out := by omega
  rw [SWO_UART_ISR_flush s rt (c :: rx) ret hfl, hl]
  refine ⟨rfl, rfl, rfl, rfl, rfl, (trace_buf_push_frame s ret).1, (trace_buf_push_frame s ret).2,
    rfl, rfl, rfl, ?_, ?_⟩
  · by_cases hr : ret = chunk_length s
    · exact congrArg Prod.snd (trace_buf_push_accept s ret hne hr)
    · exact congrArg Prod.snd (trace_buf_push_reject s ret hne hr)
  · by_cases hr : ret = chunk_length s
    · rw [trace_buf_push_accept s ret hne hr, if_pos hr]
    · rw [trace_buf_push_reject s ret hne hr, if_neg hr]

theorem C7_capture_on_full_witness :
    (4 + 1) % 256 = 5 ∧
      (SWO_UART_ISR ⟨fun i => i, 4, 5⟩ false (9 :: [8]) 64).sent =
        [⟨5, chunk_length ⟨fun i => i, 4, 5⟩,
          Fifo.read ⟨fun i => i, 4, 5⟩ 5 (chunk_length ⟨fun i => i, 4, 5⟩)⟩] ∧
      (SWO_UART_ISR_loop ⟨fun i => i, 4, 5⟩ false (9 :: [8])).stored = [] ∧
      (SWO_UART_ISR_loop ⟨fun i => i, 4, 5⟩ false (9 :: [8])).fifo.buf_rx_in = 4 ∧
      (SWO_UART_ISR ⟨fun i => i, 4, 5⟩ false (9 :: [8]) 64).drains = 1 ∧
      (SWO_UART_ISR ⟨fun i => i, 4, 5⟩ false (9 :: [8]) 64).stored = [] ∧
      (SWO_UART_ISR ⟨fun i => i, 4, 5⟩ false (9 :: [8]) 64).sent.map
          (fun p => (p.offset, p.len)) = [(5, 64)] ∧
      (SWO_UART_ISR ⟨fun i => i, 4, 5⟩ false (9 :: [8]) 64).fifo.buf_rx_in = 4 ∧
      (SWO_UART_ISR ⟨fun i => i, 4, 5⟩ false (9 :: [8]) 64).fifo.buf_rx_out = 69 :=
  ⟨by decide,
    (C7_capture_on_full ⟨fun i => i, 4, 5⟩ false 9 [8] 64 (by decide)).2.2.2.2.2.2.2.2.2.2.1,
    by decide, by decide, by decide, by decide, by decide, by decide, by decide⟩

end SwoUart
